import Mathlib

/-!
Verification of the semantic chunking pipeline and the retrieval/grounding
protocol of a policy-document RAG service (`scripts/ingest.py` and
`services/rag.py`).

Modelling conventions: Python strings are `List Char`; NumPy float arrays are
lists of real numbers (exact real arithmetic stands in for IEEE floats); the
external collaborators — the langchain text splitter, the embedding model, the
scipy clustering routine, the vector index and the LLM — are parameters of the
definitions that call them.
-/

/-- Python strings, modelled as lists of characters. -/
abbrev Str := List Char

/-- Embedding vectors (NumPy float arrays), modelled over the reals. -/
abbrev Vec := List ℝ

/-- Python `str.strip()`: remove leading and trailing whitespace. -/
def pyStrip (s : Str) : Str :=
  ((s.dropWhile Char.isWhitespace).reverse.dropWhile Char.isWhitespace).reverse

/-- Erase every whitespace character.  Two texts that agree up to whitespace
normalization have the same `stripWS` image. -/
def stripWS (s : Str) : Str := s.filter (fun c => !c.isWhitespace)

/-- Python `" ".join(l)`. -/
def joinSp (l : List Str) : Str := List.intercalate [' '] l

/-- The expression `f"{buffer} {chunk}".strip() if buffer else chunk` of
ingest.py line 52. -/
def combine (buffer c : Str) : Str :=
  if buffer = [] then c else pyStrip (buffer ++ ' ' :: c)

/-- The merge loop of `initial_split` (ingest.py lines 49-61), the running
buffer made the first explicit argument.  Fragments accumulate into the buffer
while `combine buffer c` stays under `min_len`; once the combination reaches
`min_len` the old buffer is emitted (if non-empty) and the buffer restarts from
the incoming fragment; the leftover buffer is emitted at the end. -/
def mergeAux (min_len : Nat) : Str → List Str → List Str
  | buffer, [] => if buffer = [] then [] else [buffer]
  | buffer, c :: cs =>
    if (combine buffer c).length < min_len then
      mergeAux min_len (combine buffer c) cs
    else
      (if buffer = [] then [] else [buffer]) ++ mergeAux min_len c cs

/-- The merge step of `initial_split`, started with an empty buffer. -/
def mergeStep (chunks : List Str) (min_len : Nat) : List Str :=
  mergeAux min_len [] chunks

/-- Model of `initial_split` (ingest.py lines 40-62).  The coarse split is performed by
the external langchain `RecursiveCharacterTextSplitter` (the parameter
`splitter`, which absorbs `chunk_size` and the separator hierarchy); its output
is then merged by `mergeStep`. -/
def initial_split (splitter : Str → List Str) (text : Str) (min_len : Nat) :
    List Str :=
  mergeStep (splitter text) min_len

example : mergeStep [['a'], ['b', 'b', 'b', 'b']] 5 = [['a'], ['b', 'b', 'b', 'b']] := by
  decide

/-- Dot product of two vectors (`np.dot`). -/
def dot (u v : Vec) : ℝ := (List.zipWith (· * ·) u v).sum

/-- The scipy cosine distance `1 - u·v / sqrt((u·u)(v·v))`. -/
noncomputable def cosineDist (u v : Vec) : ℝ :=
  1 - dot u v / Real.sqrt (dot u u * dot v v)

/-- Model of `np.percentile(xs, q)` with the default linear interpolation: with `s` the
ascending sort of `xs`, the virtual position is `pos = q/100 * (len - 1)` and
the result interpolates between `s[⌊pos⌋]` and `s[⌊pos⌋ + 1]` (indices clamped
into range; numpy rejects out-of-range `q`, which cannot arise from the call
sites modelled here). -/
noncomputable def npPercentile (xs : List ℝ) (q : ℝ) : ℝ :=
  let s := List.insertionSort (· ≤ ·) xs
  let pos : ℝ := q / 100 * ((xs.length : ℝ) - 1)
  let i : ℕ := (Int.floor pos).toNat.min (xs.length - 1)
  s.getD i 0 + (pos - (i : ℝ)) * (s.getD (i + 1) (s.getD i 0) - s.getD i 0)

/-- Model of `find_breakpoints` (ingest.py lines 65-72): adjacent cosine distances
`distances[i] = cosine(embeddings[i+1], embeddings[i])`, a threshold at the
`100 * percentile` percentile of those distances, and the indices whose
distance is `>=` the threshold. -/
noncomputable def find_breakpoints (embeddings : List Vec) (percentile : ℝ) :
    List Nat :=
  if embeddings.length < 2 then []
  else
    let distances := List.zipWith cosineDist embeddings.tail embeddings
    let threshold := npPercentile distances (100 * percentile)
    (distances.enum.filter (fun p => decide (threshold ≤ p.2))).map Prod.fst

theorem find_breakpoints_sublist (embeddings : List Vec) (percentile : ℝ) :
    (find_breakpoints embeddings percentile).Sublist
      (List.range (embeddings.length - 1)) := by
  unfold find_breakpoints
  split
  · exact List.nil_sublist _
  · set distances := List.zipWith cosineDist embeddings.tail embeddings with hd
    have hlen : distances.length = embeddings.length - 1 := by
      rw [hd, List.length_zipWith, List.length_tail]
      exact Nat.min_eq_left (Nat.sub_le _ _)
    have h1 : (distances.enum.filter
        (fun p => decide (npPercentile distances (100 * percentile) ≤ p.2))).Sublist
        distances.enum := List.filter_sublist _
    have h2 := h1.map Prod.fst
    rw [List.enum_map_fst, hlen] at h2
    exact h2

theorem find_breakpoints_mem_lt {embeddings : List Vec} {percentile : ℝ}
    {i : ℕ} (h : i ∈ find_breakpoints embeddings percentile) :
    i + 1 < embeddings.length := by
  have := (find_breakpoints_sublist embeddings percentile).mem h
  have := List.mem_range.mp this
  omega

theorem find_breakpoints_pairwise (embeddings : List Vec) (percentile : ℝ) :
    (find_breakpoints embeddings percentile).Pairwise (· < ·) :=
  List.Pairwise.sublist (find_breakpoints_sublist embeddings percentile)
    (List.pairwise_lt_range _)

/-- The Python slice `l[a : b]` (indices clamped, as in Python). -/
def pySlice {α : Type} (l : List α) (a b : Nat) : List α :=
  (l.drop a).take (b - a)

theorem pySlice_length {α : Type} (l : List α) (a b : Nat) :
    (pySlice l a b).length = min (b - a) (l.length - a) := by
  simp [pySlice]

/-- The segment-building loop of `recursive_chunk` (ingest.py lines 96-102):
`prev = 0`, then for each breakpoint `bp` append the pair of slices
`(chunks[prev:bp+1], embeddings[prev:bp+1])` and set `prev = bp + 1`; finally
append the tail pair `(chunks[prev:], embeddings[prev:])` when
`prev < len(chunks)`. -/
def segsAux (chunks : List Str) (emb : List Vec) :
    Nat → List Nat → List (List Str × List Vec)
  | prev, [] =>
    if prev < chunks.length then [(chunks.drop prev, emb.drop prev)] else []
  | prev, bp :: rest =>
    (pySlice chunks prev (bp + 1), pySlice emb prev (bp + 1)) ::
      segsAux chunks emb (bp + 1) rest

/-- Every segment produced from in-range breakpoints is strictly smaller than
the whole problem in the combined `chunks`/`embeddings` measure; this is the
fact that makes `recursive_chunk` terminate. -/
theorem segsAux_measure_lt {chunks : List Str} {emb : List Vec} :
    ∀ {bps : List Nat} {prev : Nat},
      (∀ bp ∈ bps, bp + 1 < emb.length) → (prev = 0 → bps ≠ []) →
      0 < chunks.length →
      ∀ pr ∈ segsAux chunks emb prev bps,
        pr.1.length + pr.2.length < chunks.length + emb.length := by
  intro bps
  induction bps with
  | nil =>
    intro prev _ hprev hc pr hpr
    have hprev' : prev ≠ 0 := fun h => (hprev h) rfl
    simp only [segsAux] at hpr
    split at hpr
    · rename_i hlt
      rcases List.mem_singleton.mp hpr with rfl
      simp only [List.length_drop]
      omega
    · exact absurd hpr (List.not_mem_nil _)
  | cons bp rest ih =>
    intro prev hrange hprev hc pr hpr
    simp only [segsAux, List.mem_cons] at hpr
    rcases hpr with rfl | hpr
    · have h1 : (pySlice chunks prev (bp + 1)).length =
          min (bp + 1 - prev) (chunks.length - prev) := pySlice_length ..
      have h2 : (pySlice emb prev (bp + 1)).length =
          min (bp + 1 - prev) (emb.length - prev) := pySlice_length ..
      have hbp : bp + 1 < emb.length := hrange bp (List.mem_cons_self ..)
      simp only [h1, h2]
      rcases Nat.eq_zero_or_pos prev with rfl | hp
      · omega
      · omega
    · exact ih (fun b hb => hrange b (List.mem_cons_of_mem _ hb))
        (fun h => absurd h (by omega)) hc pr hpr

/-- Model of `recursive_chunk` (ingest.py lines 75-112).  Base case: at most one
fragment or total character count below `max_length` emits the single
space-joined chunk.  Otherwise breakpoints are computed; if none are found the
fragment list is split at its midpoint and both halves are recursed on;
otherwise the fragments are cut into segments at the sorted breakpoints and
each segment is recursed on when it still holds `max_length` or more characters
across more than one fragment, and emitted as one joined chunk otherwise. -/
noncomputable def recursive_chunk (chunks : List Str) (embeddings : List Vec)
    (max_length : Nat) (percentile : ℝ) : List Str :=
  if h1 : chunks.length ≤ 1 ∨ (chunks.map List.length).sum < max_length then
    [joinSp chunks]
  else
    if hbps : find_breakpoints embeddings percentile = [] then
      recursive_chunk (chunks.take (chunks.length / 2))
          (embeddings.take (chunks.length / 2)) max_length percentile ++
        recursive_chunk (chunks.drop (chunks.length / 2))
          (embeddings.drop (chunks.length / 2)) max_length percentile
    else
      (segsAux chunks embeddings 0
          (List.insertionSort (· ≤ ·)
            (find_breakpoints embeddings percentile))).attach.flatMap
        (fun pr =>
          if max_length ≤ (pr.1.1.map List.length).sum ∧ 1 < pr.1.1.length then
            recursive_chunk pr.1.1 pr.1.2 max_length percentile
          else [joinSp pr.1.1])
termination_by chunks.length + embeddings.length
decreasing_by
  · have hc : 2 ≤ chunks.length := by
      by_contra hcon
      exact h1 (Or.inl (by omega))
    have ht : (chunks.take (chunks.length / 2)).length = chunks.length / 2 := by
      rw [List.length_take]; omega
    have he : (embeddings.take (chunks.length / 2)).length ≤ embeddings.length := by
      rw [List.length_take]; omega
    omega
  · have hc : 2 ≤ chunks.length := by
      by_contra hcon
      exact h1 (Or.inl (by omega))
    have ht : (chunks.drop (chunks.length / 2)).length =
        chunks.length - chunks.length / 2 := List.length_drop ..
    have he : (embeddings.drop (chunks.length / 2)).length ≤ embeddings.length := by
      rw [List.length_drop]; omega
    omega
  · have hc : 2 ≤ chunks.length := by
      by_contra hcon
      exact h1 (Or.inl (by omega))
    refine segsAux_measure_lt ?_ ?_ (by omega) pr.1 pr.2
    · intro bp hbp
      exact find_breakpoints_mem_lt
        (((List.perm_insertionSort _ _).mem_iff).mp hbp)
    · intro _ hnil
      have hperm : List.Perm (find_breakpoints embeddings percentile) [] :=
        hnil ▸ (List.perm_insertionSort (· ≤ ·) _).symm
      exact hbps hperm.eq_nil

/-- The list `seg` occurs as one contiguous run inside `l`. -/
def ContigIn {α : Type} (seg l : List α) : Prop :=
  ∃ pre post, pre ++ (seg ++ post) = l

theorem ContigIn.refl {α : Type} (l : List α) : ContigIn l l :=
  ⟨[], [], by simp⟩

theorem ContigIn.trans {α : Type} {a b c : List α}
    (h1 : ContigIn a b) (h2 : ContigIn b c) : ContigIn a c := by
  obtain ⟨p1, q1, hb⟩ := h1
  obtain ⟨p2, q2, hc⟩ := h2
  exact ⟨p2 ++ p1, q1 ++ q2, by rw [← hc, ← hb]; simp⟩

theorem pySlice_contigIn {α : Type} (l : List α) (a b : Nat) :
    ContigIn (pySlice l a b) l := by
  refine ⟨l.take a, (l.drop a).drop (b - a), ?_⟩
  rw [pySlice, List.take_append_drop (b - a) (l.drop a),
    List.take_append_drop a l]

theorem take_contigIn {α : Type} (l : List α) (n : Nat) :
    ContigIn (l.take n) l :=
  ⟨[], l.drop n, by simp⟩

theorem drop_contigIn {α : Type} (l : List α) (n : Nat) :
    ContigIn (l.drop n) l :=
  ⟨l.take n, [], by simp⟩

/-- The fragment half of every segment is a Python slice of `chunks`. -/
theorem segsAux_fst_slice {chunks : List Str} {emb : List Vec} :
    ∀ {bps : List Nat} {prev : Nat} (pr : List Str × List Vec),
      pr ∈ segsAux chunks emb prev bps →
      ∃ a b, pr.1 = pySlice chunks a b := by
  intro bps
  induction bps with
  | nil =>
    intro prev pr hpr
    simp only [segsAux] at hpr
    split at hpr
    · rcases List.mem_singleton.mp hpr with rfl
      refine ⟨prev, prev + chunks.length, ?_⟩
      rw [pySlice, Nat.add_sub_cancel_left,
        List.take_all_of_le (by rw [List.length_drop]; omega)]
    · exact absurd hpr (List.not_mem_nil _)
  | cons bp rest ih =>
    intro prev pr hpr
    rcases List.mem_cons.mp hpr with rfl | h
    · exact ⟨prev, bp + 1, rfl⟩
    · exact ih pr h

/-- C1 (amended): every chunk returned by `recursive_chunk` is the space-join
of one contiguous segment of the input fragments, and that segment either
holds at most one fragment or totals strictly fewer than `max_length`
characters counting fragment characters only — the joined chunk itself may
exceed `max_length` by the number of inserted joining spaces, so the original
bound "length at most `max_length` or a single-fragment segment" fails (see
the counterexample). -/
theorem claim_C1 (chunks : List Str) (embeddings : List Vec)
    (max_length : Nat) (percentile : ℝ) :
    ∀ c ∈ recursive_chunk chunks embeddings max_length percentile,
      ∃ seg : List Str, ContigIn seg chunks ∧ c = joinSp seg ∧
        (seg.length ≤ 1 ∨ (seg.map List.length).sum < max_length) := by
  induction chunks, embeddings, max_length, percentile
    using recursive_chunk.induct with
  | case1 chunks embeddings max_length percentile h1 =>
    intro c hc
    rw [recursive_chunk, dif_pos h1] at hc
    rcases List.mem_singleton.mp hc with rfl
    refine ⟨chunks, ContigIn.refl _, rfl, ?_⟩
    rcases h1 with h | h
    · exact Or.inl h
    · exact Or.inr h
  | case2 chunks embeddings max_length percentile h1 hbps ih1 ih2 =>
    intro c hc
    rw [recursive_chunk, dif_neg h1, dif_pos hbps] at hc
    rcases List.mem_append.mp hc with h | h
    · obtain ⟨seg, hin, rfl, hcond⟩ := ih1 c h
      exact ⟨seg, hin.trans (take_contigIn ..), rfl, hcond⟩
    · obtain ⟨seg, hin, rfl, hcond⟩ := ih2 c h
      exact ⟨seg, hin.trans (drop_contigIn ..), rfl, hcond⟩
  | case3 chunks embeddings max_length percentile h1 hbps ih =>
    intro c hc
    rw [recursive_chunk, dif_neg h1, dif_neg hbps] at hc
    rw [List.mem_flatMap] at hc
    obtain ⟨pr, _hprmem, hc⟩ := hc
    obtain ⟨a, b, hslice⟩ := segsAux_fst_slice pr.1 pr.2
    by_cases hcond :
        max_length ≤ (pr.1.1.map List.length).sum ∧ 1 < pr.1.1.length
    · rw [if_pos hcond] at hc
      obtain ⟨seg, hin, rfl, hc2⟩ := ih pr c hc
      exact ⟨seg, hin.trans (hslice ▸ pySlice_contigIn ..), rfl, hc2⟩
    · rw [if_neg hcond] at hc
      rcases List.mem_singleton.mp hc with rfl
      refine ⟨pr.1.1, hslice ▸ pySlice_contigIn .., rfl, ?_⟩
      rcases Decidable.not_and_iff_or_not.mp hcond with h | h
      · exact Or.inr (Nat.lt_of_not_le h)
      · exact Or.inl (Nat.le_of_not_lt h)

/-- Witness for C1 (amended) on a one-fragment input. -/
theorem claim_C1_witness :
    ∃ seg : List Str, ContigIn seg [['a']] ∧ ['a'] = joinSp seg ∧
      (seg.length ≤ 1 ∨ (seg.map List.length).sum < 5) :=
  claim_C1 [['a']] [[1]] 5 (85 / 100) ['a']
    (by rw [recursive_chunk, dif_pos (Or.inl (by decide))]; decide)

/-- C1 counterexample: with `max_length = 10` and the fragments
`"aaa", "aaa", "aaa"` (total 9 < 10, so the base case joins all three), the
single returned chunk `"aaa aaa aaa"` has length 11 > `max_length` and is not
the text of a single input fragment, refuting the claim as stated. -/
theorem claim_C1_counterexample :
    recursive_chunk [['a', 'a', 'a'], ['a', 'a', 'a'], ['a', 'a', 'a']]
        [[1], [1], [1]] 10 (85 / 100) =
      [['a', 'a', 'a', ' ', 'a', 'a', 'a', ' ', 'a', 'a', 'a']] ∧
    ¬(['a', 'a', 'a', ' ', 'a', 'a', 'a', ' ', 'a', 'a', 'a'].length ≤ 10 ∨
      ['a', 'a', 'a', ' ', 'a', 'a', 'a', ' ', 'a', 'a', 'a'] ∈
        [['a', 'a', 'a'], ['a', 'a', 'a'], ['a', 'a', 'a']]) := by
  constructor
  · rw [recursive_chunk, dif_pos (Or.inr (by decide))]
    decide
  · decide

/-- With strictly ascending in-range breakpoints, every segment is non-empty
and strictly shorter than the whole fragment list. -/
theorem segsAux_strict {chunks : List Str} {emb : List Vec} :
    ∀ {bps : List Nat} {prev : Nat},
      bps.Pairwise (· < ·) →
      (∀ bp ∈ bps, bp + 1 < chunks.length) →
      (∀ bp ∈ bps, prev ≤ bp) →
      (prev = 0 → bps ≠ []) →
      ∀ pr ∈ segsAux chunks emb prev bps,
        pr.1 ≠ [] ∧ pr.1.length < chunks.length := by
  intro bps
  induction bps with
  | nil =>
    intro prev _ _ _ hprev pr hpr
    have hprev' : prev ≠ 0 := fun h => (hprev h) rfl
    simp only [segsAux] at hpr
    split at hpr
    · rename_i hlt
      rcases List.mem_singleton.mp hpr with rfl
      constructor
      · simp only [ne_eq, ← List.length_eq_zero, List.length_drop]
        omega
      · rw [List.length_drop]; omega
    · exact absurd hpr (List.not_mem_nil _)
  | cons bp rest ih =>
    intro prev hpw hrange hle hprev pr hpr
    rcases List.mem_cons.mp hpr with rfl | h
    · have hbp : bp + 1 < chunks.length := hrange bp (List.mem_cons_self ..)
      have hpb : prev ≤ bp := hle bp (List.mem_cons_self ..)
      have hlen : (pySlice chunks prev (bp + 1)).length =
          min (bp + 1 - prev) (chunks.length - prev) := pySlice_length ..
      constructor
      · simp only [ne_eq, ← List.length_eq_zero, hlen]
        omega
      · rw [hlen]; omega
    · refine ih hpw.of_cons ?_ ?_ (by omega) pr h
      · exact fun b hb => hrange b (List.mem_cons_of_mem _ hb)
      · intro b hb
        have := (List.pairwise_cons.mp hpw).1 b hb
        omega

/-- C6: `recursive_chunk` terminates on every input with matching embeddings:
past the base case, if no breakpoints are found the binary midpoint split
produces two non-empty strict sub-problems, and if breakpoints exist every
segment built from them is a non-empty fragment list strictly shorter than the
input, so each recursive call strictly shrinks the fragment count (these are
exactly the decreasing facts justifying the well-founded definition of
`recursive_chunk`). -/
theorem claim_C6 (chunks : List Str) (embeddings : List Vec) (percentile : ℝ)
    (hlen : embeddings.length = chunks.length) (h2 : 2 ≤ chunks.length) :
    (find_breakpoints embeddings percentile = [] →
      0 < chunks.length / 2 ∧ chunks.length / 2 < chunks.length) ∧
    (find_breakpoints embeddings percentile ≠ [] →
      ∀ pr ∈ segsAux chunks embeddings 0
          (List.insertionSort (· ≤ ·) (find_breakpoints embeddings percentile)),
        pr.1 ≠ [] ∧ pr.1.length < chunks.length) := by
  constructor
  · intro _
    omega
  · intro hne pr hpr
    have hsorted : List.Sorted (· ≤ ·) (find_breakpoints embeddings percentile) :=
      (find_breakpoints_pairwise embeddings percentile).imp Nat.le_of_lt
    rw [hsorted.insertionSort_eq] at hpr
    refine segsAux_strict (find_breakpoints_pairwise embeddings percentile)
      ?_ (fun b _ => Nat.zero_le b) (fun _ => hne) pr hpr
    intro bp hbp
    have := find_breakpoints_mem_lt hbp
    omega

/-- Witness for C6 at a concrete two-fragment input with matching
embeddings. -/
theorem claim_C6_witness :
    (find_breakpoints [[1], [0]] (85 / 100) = [] →
      0 < ([['a'], ['b']] : List Str).length / 2 ∧
        ([['a'], ['b']] : List Str).length / 2 < ([['a'], ['b']] : List Str).length) ∧
    (find_breakpoints [[1], [0]] (85 / 100) ≠ [] →
      ∀ pr ∈ segsAux [['a'], ['b']] [[1], [0]] 0
          (List.insertionSort (· ≤ ·) (find_breakpoints [[1], [0]] (85 / 100))),
        pr.1 ≠ [] ∧ pr.1.length < ([['a'], ['b']] : List Str).length) :=
  claim_C6 [['a'], ['b']] [[1], [0]] (85 / 100) (by decide) (by decide)

theorem cosineDist_self {v : Vec} (h : 0 < dot v v) : cosineDist v v = 0 := by
  rw [cosineDist, Real.sqrt_mul_self h.le, div_self h.ne', sub_self]

theorem insertionSort_replicate (n : ℕ) (c : ℝ) :
    List.insertionSort (· ≤ ·) (List.replicate n c) = List.replicate n c := by
  rw [List.eq_replicate_iff]
  refine ⟨?_, ?_⟩
  · rw [(List.perm_insertionSort _ _).length_eq, List.length_replicate]
  · intro b hb
    exact List.eq_of_mem_replicate ((List.perm_insertionSort _ _).mem_iff.mp hb)

theorem npPercentile_replicate (n : ℕ) (c q : ℝ) (hn : 0 < n) :
    npPercentile (List.replicate n c) q = c := by
  simp only [npPercentile, insertionSort_replicate, List.length_replicate]
  have hi : ∀ j : ℕ, j < n → (List.replicate n c).getD j 0 = c := by
    intro j hj
    rw [List.getD_eq_getElem?_getD, List.getElem?_replicate, if_pos hj]
    rfl
  have hil : (Int.floor (q / 100 * ((n : ℝ) - 1))).toNat.min (n - 1) < n :=
    Nat.lt_of_le_of_lt (Nat.min_le_right _ _) (by omega)
  rw [hi _ hil]
  have h2 : (List.replicate n c).getD
      ((Int.floor (q / 100 * ((n : ℝ) - 1))).toNat.min (n - 1) + 1) c = c := by
    rw [List.getD_eq_getElem?_getD, List.getElem?_replicate]
    split
    · rfl
    · rfl
  rw [h2, sub_self, mul_zero, add_zero]

theorem find_breakpoints_replicate (n : ℕ) (v : Vec) (p : ℝ)
    (hn : 2 ≤ n) (hv : 0 < dot v v) :
    find_breakpoints (List.replicate n v) p = List.range (n - 1) := by
  unfold find_breakpoints
  rw [if_neg (by rw [List.length_replicate]; omega)]
  have hdist : List.zipWith cosineDist (List.replicate n v).tail
      (List.replicate n v) = List.replicate (n - 1) (0 : ℝ) := by
    rw [List.tail_replicate, List.zipWith_replicate, cosineDist_self hv]
    congr 1
    omega
  simp only [hdist, npPercentile_replicate (n - 1) 0 (100 * p) (by omega)]
  have hfil : (List.replicate (n - 1) (0 : ℝ)).enum.filter
        (fun pr => decide ((0 : ℝ) ≤ pr.2)) =
      (List.replicate (n - 1) (0 : ℝ)).enum := by
    rw [List.filter_eq_self]
    intro a ha
    have ha2 : a.2 = 0 :=
      List.eq_of_mem_replicate (List.snd_mem_of_mem_enum ha)
    rw [ha2]
    exact decide_eq_true le_rfl
  rw [hfil, List.enum_map_fst, List.length_replicate]

/-- C5 (amended): on a list of `n ≥ 2` identical embeddings (with positive
self-dot-product), `find_breakpoints` returns *all* gap indices
`0 .. n-2`, not the empty set: every adjacent cosine distance is `0`, the
percentile threshold over a constant distance list is that same `0`, and the
filter keeps every distance `>=` the threshold. -/
theorem claim_C5 (n : ℕ) (v : Vec) (p : ℝ) (hn : 2 ≤ n) (hv : 0 < dot v v) :
    find_breakpoints (List.replicate n v) p = List.range (n - 1) :=
  find_breakpoints_replicate n v p hn hv

/-- Witness for C5 (amended) at three identical one-dimensional embeddings. -/
theorem claim_C5_witness :
    find_breakpoints (List.replicate 3 [(1 : ℝ)]) (85 / 100) = List.range 2 :=
  claim_C5 3 [(1 : ℝ)] (85 / 100) (by norm_num)
    (by norm_num [dot, List.zipWith])

/-- C5 counterexample: two identical embeddings `[1]` give breakpoint list
`[0]`, not the empty list, refuting the claim as stated. -/
theorem claim_C5_counterexample :
    find_breakpoints [[(1 : ℝ)], [(1 : ℝ)]] (85 / 100) = [0] ∧
      ([0] : List ℕ) ≠ [] := by
  have h : ([[(1 : ℝ)], [(1 : ℝ)]] : List Vec) = List.replicate 2 [(1 : ℝ)] :=
    rfl
  refine ⟨?_, by simp⟩
  rw [h, find_breakpoints_replicate 2 [(1 : ℝ)] _ (by norm_num)
    (by norm_num [dot, List.zipWith])]
  rfl

/-- The emission guard of the merge loop: `if buffer: merged.append(buffer)`.
-/
def emitIf (s : Str) : List Str := if s = [] then [] else [s]

/-- The buffer value built by merging a block of fragments into `buffer`. -/
def bufFold (buffer : Str) (b : List Str) : Str := b.foldl combine buffer

/-- Block decomposition of the merge loop: the input fragments split into
consecutive blocks, one per buffer lifetime; the emitted strings are the
final buffer values of the blocks (empty buffers skipped by the guard), and
each non-final buffer was flushed exactly when combining it with the first
fragment of the next block reached `min_len`. -/
theorem mergeAux_blocks (min_len : Nat) :
    ∀ (cs : List Str) (buffer : Str),
      ∃ b0 : List Str, ∃ rest : List (List Str),
        b0 ++ rest.flatten = cs ∧
        (∀ b ∈ rest, b ≠ []) ∧
        mergeAux min_len buffer cs =
          (bufFold buffer b0 :: rest.map (bufFold [])).flatMap emitIf ∧
        (∀ i, i + 1 < (b0 :: rest).length →
          min_len ≤
            (combine ((bufFold buffer b0 :: rest.map (bufFold [])).getD i [])
              (((b0 :: rest).getD (i + 1) []).headD [])).length) := by
  intro cs
  induction cs with
  | nil =>
    intro buffer
    refine ⟨[], [], by simp, by simp, ?_, ?_⟩
    · simp only [mergeAux, bufFold, List.foldl_nil, List.map_nil,
        List.flatMap_cons, List.flatMap_nil, emitIf, List.append_nil]
    · intro i hi
      simp at hi
  | cons c cs ih =>
    intro buffer
    by_cases hlt : (combine buffer c).length < min_len
    · obtain ⟨b0, rest, hjoin, hne, hout, hflush⟩ := ih (combine buffer c)
      refine ⟨c :: b0, rest, ?_, hne, ?_, ?_⟩
      · simpa using hjoin
      · have hstep : mergeAux min_len buffer (c :: cs) =
            mergeAux min_len (combine buffer c) cs := by
          simp only [mergeAux, if_pos hlt]
        have hb : bufFold buffer (c :: b0) = bufFold (combine buffer c) b0 := by
          rw [bufFold, List.foldl_cons]
          rfl
        rw [hstep, hout, hb]
      · intro i hi
        have hb : bufFold buffer (c :: b0) = bufFold (combine buffer c) b0 := by
          rw [bufFold, List.foldl_cons]
          rfl
        cases i with
        | zero =>
          have := hflush 0 (by simpa using hi)
          simpa [hb] using this
        | succ j =>
          have := hflush (j + 1) (by simpa using hi)
          simpa [hb] using this
    · obtain ⟨b0, rest, hjoin, hne, hout, hflush⟩ := ih c
      refine ⟨[], (c :: b0) :: rest, ?_, ?_, ?_, ?_⟩
      · simpa using hjoin
      · intro b hb
        rcases List.mem_cons.mp hb with rfl | hb
        · exact List.cons_ne_nil _ _
        · exact hne b hb
      · have hstep : mergeAux min_len buffer (c :: cs) =
            (if buffer = [] then [] else [buffer]) ++ mergeAux min_len c cs := by
          simp only [mergeAux, if_neg hlt]
        have hcb : bufFold [] (c :: b0) = bufFold c b0 := by
          rw [bufFold, List.foldl_cons]
          simp [combine, bufFold]
        rw [hstep, hout, List.map_cons, hcb]
        simp only [List.flatMap_cons, bufFold, List.foldl_nil]
        rw [show emitIf buffer = if buffer = [] then [] else [buffer] from rfl]
      · intro i hi
        have hcb : bufFold [] (c :: b0) = bufFold c b0 := by
          rw [bufFold, List.foldl_cons]
          simp [combine, bufFold]
        cases i with
        | zero =>
          simp only [List.getD_cons_zero, List.getD_cons_succ, bufFold,
            List.foldl_nil, List.headD_cons]
          omega
        | succ j =>
          have := hflush j (by simp at hi ⊢; omega)
          simp only [List.getD_cons_succ, hcb]
          simpa using this

/-- C4 (amended): the merge step of `initial_split` accumulates adjacent
fragments (in original order) into a running buffer while the buffer combined
with the incoming fragment stays below `min_len`; once that combination
reaches `min_len` the *previous* buffer is flushed to the output — it may
itself be shorter than `min_len` — and the buffer restarts from the incoming
fragment; the final leftover buffer is emitted last even if under `min_len`.
The original conclusion "every emitted fragment except possibly the last has
length at least `min_len`" fails (see the counterexample); what holds instead
is that each non-final emitted buffer, combined with the first fragment of
the following block, has length at least `min_len`. -/
theorem claim_C4 (chunks : List Str) (min_len : Nat) :
    ∃ blocks : List (List Str), blocks ≠ [] ∧
      blocks.flatten = chunks ∧
      (∀ b ∈ blocks.tail, b ≠ []) ∧
      mergeStep chunks min_len = (blocks.map (bufFold [])).flatMap emitIf ∧
      (∀ i, i + 1 < blocks.length →
        min_len ≤ (combine ((blocks.map (bufFold [])).getD i [])
          ((blocks.getD (i + 1) []).headD [])).length) := by
  obtain ⟨b0, rest, hjoin, hne, hout, hflush⟩ := mergeAux_blocks min_len chunks []
  refine ⟨b0 :: rest, List.cons_ne_nil _ _, by simpa using hjoin, hne, ?_, ?_⟩
  · rw [mergeStep, hout, List.map_cons]
  · intro i hi
    have := hflush i hi
    simpa using this

/-- C4 counterexample: with `min_len = 5` and fragments `"a"`, `"bbbb"`, the
merge step emits `["a", "bbbb"]`: the first emitted fragment has length
1 < `min_len` and is not the last, refuting the claim's conclusion. -/
theorem claim_C4_counterexample :
    mergeStep [['a'], ['b', 'b', 'b', 'b']] 5 = [['a'], ['b', 'b', 'b', 'b']] ∧
    (mergeStep [['a'], ['b', 'b', 'b', 'b']] 5).length = 2 ∧
    ¬ 5 ≤ ((mergeStep [['a'], ['b', 'b', 'b', 'b']] 5).getD 0 []).length := by
  refine ⟨by decide, by decide, by decide⟩

theorem stripWS_append (a b : Str) :
    stripWS (a ++ b) = stripWS a ++ stripWS b :=
  List.filter_append ..

theorem stripWS_reverse (l : Str) : stripWS l.reverse = (stripWS l).reverse :=
  List.filter_reverse ..

theorem stripWS_dropWhile (l : Str) :
    stripWS (l.dropWhile Char.isWhitespace) = stripWS l := by
  induction l with
  | nil => rfl
  | cons c cs ih =>
    rw [List.dropWhile_cons]
    by_cases hc : c.isWhitespace = true
    · rw [if_pos hc, ih]
      simp [stripWS, List.filter_cons, hc]
    · rw [if_neg hc]

theorem stripWS_pyStrip (s : Str) : stripWS (pyStrip s) = stripWS s := by
  rw [pyStrip, stripWS_reverse, stripWS_dropWhile, stripWS_reverse,
    List.reverse_reverse, stripWS_dropWhile]

theorem stripWS_space_cons (s : Str) : stripWS (' ' :: s) = stripWS s := by
  have h : (' ' : Char).isWhitespace = true := rfl
  simp [stripWS, List.filter_cons, h]

theorem stripWS_combine (b c : Str) :
    stripWS (combine b c) = stripWS b ++ stripWS c := by
  rw [combine]
  split
  · rename_i hb
    rw [hb]
    rfl
  · rw [stripWS_pyStrip, stripWS_append, stripWS_space_cons]

theorem joinSp_single (a : Str) : joinSp [a] = a := by
  simp [joinSp, List.intercalate]

theorem joinSp_cons_cons (a b : Str) (l : List Str) :
    joinSp (a :: b :: l) = a ++ ' ' :: joinSp (b :: l) := by
  simp [joinSp, List.intercalate, List.intersperse]

theorem stripWS_joinSp (l : List Str) : stripWS (joinSp l) = stripWS l.flatten := by
  induction l with
  | nil => rfl
  | cons a l ih =>
    cases l with
    | nil =>
      rw [joinSp_single]
      simp
    | cons b t =>
      rw [joinSp_cons_cons, stripWS_append, stripWS_space_cons, ih,
        List.flatten_cons, stripWS_append, List.flatten_cons, stripWS_append,
        List.flatten_cons, stripWS_append]

theorem stripWS_mergeAux (min_len : Nat) :
    ∀ (cs : List Str) (buffer : Str),
      stripWS (mergeAux min_len buffer cs).flatten =
        stripWS buffer ++ stripWS cs.flatten := by
  intro cs
  induction cs with
  | nil =>
    intro buffer
    simp only [mergeAux]
    split
    · rename_i h
      rw [h]
      rfl
    · simp [stripWS]
  | cons c cs ih =>
    intro buffer
    simp only [mergeAux]
    split
    · rw [ih, stripWS_combine, List.flatten_cons, stripWS_append,
        List.append_assoc]
    · rw [List.flatten_append, stripWS_append, ih, List.flatten_cons,
        stripWS_append]
      split
      · rename_i h
        rw [h]
        simp
      · simp [List.append_assoc]

theorem segsAux_flatten {chunks : List Str} {emb : List Vec} :
    ∀ {bps : List Nat} {prev : Nat}, bps.Pairwise (· ≤ ·) →
      (∀ b ∈ bps, prev ≤ b + 1) →
      ((segsAux chunks emb prev bps).map Prod.fst).flatten = chunks.drop prev := by
  intro bps
  induction bps with
  | nil =>
    intro prev _ _
    simp only [segsAux]
    split
    · simp
    · rename_i h
      rw [List.drop_eq_nil_of_le (by omega)]
      rfl
  | cons bp rest ih =>
    intro prev hpw hge
    simp only [segsAux, List.map_cons, List.flatten_cons]
    rw [ih hpw.of_cons ?side]
    case side =>
      intro b hb
      have := (List.pairwise_cons.mp hpw).1 b hb
      omega
    have hle : prev ≤ bp + 1 := hge bp (List.mem_cons_self ..)
    have h2 : chunks.drop (bp + 1) = (chunks.drop prev).drop (bp + 1 - prev) := by
      rw [List.drop_drop]
      congr 1
      omega
    rw [h2, pySlice, List.take_append_drop]

theorem stripWS_flatten_flatMap {β : Type} (l : List β) (g : β → List Str) :
    stripWS ((l.flatMap g).flatten) =
      (l.map (fun x => stripWS ((g x).flatten))).flatten := by
  induction l with
  | nil => rfl
  | cons a l ih =>
    rw [List.flatMap_cons, List.flatten_append, stripWS_append, ih,
      List.map_cons, List.flatten_cons]

theorem stripWS_flatMap_attach (l : List (List Str × List Vec))
    (g : {x // x ∈ l} → List Str)
    (hg : ∀ pr : {x // x ∈ l}, stripWS ((g pr).flatten) = stripWS pr.1.1.flatten) :
    stripWS ((l.attach.flatMap g).flatten) =
      stripWS ((l.map Prod.fst).flatten.flatten) := by
  rw [stripWS_flatten_flatMap, List.map_congr_left (fun pr _ => hg pr),
    List.attach_map_val l (fun x => stripWS x.1.flatten),
    ← stripWS_flatten_flatMap l Prod.fst, List.flatMap_def]

theorem stripWS_recursive_chunk (chunks : List Str) (embeddings : List Vec)
    (max_length : Nat) (percentile : ℝ) :
    stripWS (recursive_chunk chunks embeddings max_length percentile).flatten =
      stripWS chunks.flatten := by
  induction chunks, embeddings, max_length, percentile
    using recursive_chunk.induct with
  | case1 chunks embeddings max_length percentile h1 =>
    rw [recursive_chunk, dif_pos h1]
    simp only [List.flatten_cons, List.flatten_nil, List.append_nil]
    exact stripWS_joinSp chunks
  | case2 chunks embeddings max_length percentile h1 hbps ih1 ih2 =>
    rw [recursive_chunk, dif_neg h1, dif_pos hbps, List.flatten_append,
      stripWS_append, ih1, ih2, ← stripWS_append, ← List.flatten_append,
      List.take_append_drop]
  | case3 chunks embeddings max_length percentile h1 hbps ih =>
    rw [recursive_chunk, dif_neg h1, dif_neg hbps, stripWS_flatMap_attach _ _
      (fun pr => by
        split
        · exact ih pr
        · simp only [List.flatten_cons, List.flatten_nil, List.append_nil]
          exact stripWS_joinSp pr.1.1),
      segsAux_flatten (List.sorted_insertionSort _ _)
        (fun b _ => Nat.zero_le _), List.drop_zero]

/-- C3: the chunking pipeline — `initial_split`'s merge step, then
`recursive_chunk`, then the final per-chunk stripping and empty-chunk
filtering — preserves the document text up to whitespace normalization: the
whitespace-erased concatenation of all final chunks equals the
whitespace-erased concatenation of the input fragments, so no text is
dropped. -/
theorem claim_C3 (fragments : List Str) (min_len : Nat) (embeddings : List Vec)
    (max_length : Nat) (percentile : ℝ) :
    stripWS ((((recursive_chunk (mergeStep fragments min_len) embeddings
          max_length percentile).map pyStrip).filter
            (fun t => !t.isEmpty)).flatten) =
      stripWS fragments.flatten := by
  have h1 : ∀ l : List Str,
      (l.filter (fun t => !t.isEmpty)).flatten = l.flatten := by
    intro l
    induction l with
    | nil => rfl
    | cons a t ih =>
      rw [List.filter_cons]
      split
      · rw [List.flatten_cons, ih, List.flatten_cons]
      · rename_i h
        have ha : a = [] := by simpa [List.isEmpty_iff] using h
        rw [List.flatten_cons, ha, List.nil_append, ih]
  have h2 : ∀ l : List Str,
      stripWS ((l.map pyStrip).flatten) = stripWS l.flatten := by
    intro l
    induction l with
    | nil => rfl
    | cons a t ih =>
      rw [List.map_cons, List.flatten_cons, stripWS_append, stripWS_pyStrip,
        ih, List.flatten_cons, stripWS_append]
  rw [h1, h2, stripWS_recursive_chunk, mergeStep, stripWS_mergeAux]
  rfl

/-- A retrieved document: chunk text, source identifier and query-time
distance, as handled by `services/rag.py`. -/
structure RetrievedDoc where
  text : Str
  source : Str
  distance : ℚ
deriving DecidableEq

/-- The external vector index (Chroma collection): for a query text and a
result count it returns the nearest stored chunks, distance-ascending. -/
structure VectorStore where
  nearest : Str → Nat → List RetrievedDoc

/-- Modelled from the spec: `VectorStore.query` lives in
`src/services/vector_store.py`, which is not among the provided source files
(only its callers and constructor call sites are).  Per spec section 4.5 the
method asks the vector index for the `n_results` nearest chunks, then
"discards every result whose distance exceeds `threshold`", returning the
possibly-empty remainder. -/
def VectorStore.query (vs : VectorStore) (query_text : Str) (n_results : Nat)
    (threshold : ℚ) : List RetrievedDoc :=
  (vs.nearest query_text n_results).filter (fun d => d.distance ≤ threshold)

/-- C2: assuming the index hands back its candidates distance-ascending, the
retrieval result set keeps every member's distance at most the threshold,
stays sorted ascending by distance, and is the empty list — a normal value,
not an error — whenever every candidate exceeds the threshold. -/
theorem claim_C2 (vs : VectorStore) (q : Str) (n : Nat) (t : ℚ)
    (hsorted : (vs.nearest q n).Pairwise (fun a b => a.distance ≤ b.distance)) :
    (∀ d ∈ vs.query q n t, d.distance ≤ t) ∧
    (vs.query q n t).Pairwise (fun a b => a.distance ≤ b.distance) ∧
    ((∀ d ∈ vs.nearest q n, t < d.distance) → vs.query q n t = []) := by
  refine ⟨?_, ?_, ?_⟩
  · intro d hd
    simpa using List.of_mem_filter hd
  · exact List.Pairwise.sublist (List.filter_sublist _) hsorted
  · intro hall
    refine List.filter_eq_nil_iff.mpr ?_
    intro d hd
    simpa using (hall d hd).not_le

/-- Witness for C2 on a two-candidate index response with threshold `3/2`. -/
theorem claim_C2_witness :
    (∀ d ∈ VectorStore.query ⟨fun _ _ =>
        [⟨['x'], ['s'], 1⟩, ⟨['y'], ['r'], 2⟩]⟩ ['q'] 5 (3 / 2),
      d.distance ≤ 3 / 2) ∧
    (VectorStore.query ⟨fun _ _ =>
        [⟨['x'], ['s'], 1⟩, ⟨['y'], ['r'], 2⟩]⟩ ['q'] 5 (3 / 2)).Pairwise
      (fun a b => a.distance ≤ b.distance) ∧
    ((∀ d ∈ (⟨fun _ _ => [⟨['x'], ['s'], 1⟩, ⟨['y'], ['r'], 2⟩]⟩ :
        VectorStore).nearest ['q'] 5, (3 : ℚ) / 2 < d.distance) →
      VectorStore.query ⟨fun _ _ =>
        [⟨['x'], ['s'], 1⟩, ⟨['y'], ['r'], 2⟩]⟩ ['q'] 5 (3 / 2) = []) :=
  claim_C2 ⟨fun _ _ => [⟨['x'], ['s'], 1⟩, ⟨['y'], ['r'], 2⟩]⟩ ['q'] 5 (3 / 2)
    (by decide)

/-- Outcome dictionary of `RAGService.query`. -/
structure RagResult where
  answer : Str
  sources : List Str
  num_docs : Nat
deriving DecidableEq

/-- The fixed no-grounding answer (services/rag.py line 72). -/
def noResultsAnswer : Str :=
  "I couldn't find any relevant information to answer your question.".toList

/-- Context assembly (`RAGService._format_context`, services/rag.py lines
92-100). -/
def format_context (docs : List RetrievedDoc) : Str :=
  List.intercalate "\n\n".toList
    (docs.map (fun d => "[Source: ".toList ++ d.source ++ "]\n".toList ++ d.text))

/-- The RAG prompt template (services/rag.py lines 15-26) around the context
slot. -/
def ragPromptHead : Str :=
  ("Answer the question using ONLY the policy documents below. Do not use external knowledge.\n\nIf the documents don't contain enough information, say: \"I don't have enough information in these policies to answer fully.\"\n\nAlways quote specific numbers, dates, and requirements exactly as written.\n\nPolicy Documents:\n").toList

/-- The template text between the context and question slots. -/
def ragPromptMid : Str := "\n\nQuestion: ".toList

/-- The template text after the question slot. -/
def ragPromptSuffix : Str := "\n\nAnswer:".toList

/-- Model of `RAGService._generate_answer` (services/rag.py lines 102-110): format the
prompt template and invoke the LLM. -/
def generate_answer (llm : Str → Str) (question context : Str) : Str :=
  llm (ragPromptHead ++ context ++ ragPromptMid ++ question ++ ragPromptSuffix)

/-- Model of `RAGService` (services/rag.py lines 29-50).  The LLM client and the vector
store are external collaborators.  `setToList` models the enumeration order of
Python's `list({...})` over a hash set, which the language leaves unspecified;
it is therefore a parameter of the model. -/
structure RAGService where
  llm : Str → Str
  vector_store : VectorStore
  top_k : Nat
  threshold : ℚ
  setToList : List Str → List Str

/-- Model of `RAGService.query` (services/rag.py lines 52-90): retrieve, return the
fixed no-grounding result when nothing passes, otherwise format the context,
generate the answer and collect the deduplicated sources. -/
def RAGService.query (s : RAGService) (question : Str) : RagResult :=
  let docs := s.vector_store.query question s.top_k s.threshold
  if docs = [] then
    { answer := noResultsAnswer, sources := [], num_docs := 0 }
  else
    { answer := generate_answer s.llm question (format_context docs),
      sources := s.setToList (docs.map RetrievedDoc.source),
      num_docs := docs.length }

/-- C8: when retrieval returns no passing documents, `RAGService.query` does
not raise and returns the fixed no-grounding answer with an empty source list
and `num_docs = 0`; the LLM is not called — the result is independent of the
LLM function. -/
theorem claim_C8 (s : RAGService) (question : Str)
    (h : s.vector_store.query question s.top_k s.threshold = []) :
    RAGService.query s question =
      { answer := noResultsAnswer, sources := [], num_docs := 0 } ∧
    ∀ f : Str → Str,
      RAGService.query { s with llm := f } question =
        RAGService.query s question := by
  constructor
  · simp only [RAGService.query, h, if_pos]
  · intro f
    simp only [RAGService.query]
    simp [h]

/-- Witness for C8 with an empty index. -/
theorem claim_C8_witness :
    RAGService.query
        { llm := id, vector_store := ⟨fun _ _ => []⟩, top_k := 5,
          threshold := 6 / 5, setToList := id } ['h', 'i'] =
      { answer := noResultsAnswer, sources := [], num_docs := 0 } :=
  (claim_C8
    { llm := id, vector_store := ⟨fun _ _ => []⟩, top_k := 5,
      threshold := 6 / 5, setToList := id } ['h', 'i'] (by decide)).1

theorem count_eq_one_of_nodup_mem {α : Type} [BEq α] [LawfulBEq α] {a : α}
    {l : List α} (hn : l.Nodup) (h : a ∈ l) : l.count a = 1 := by
  induction l with
  | nil => exact absurd h (List.not_mem_nil a)
  | cons b t ih =>
    have hn' := List.nodup_cons.mp hn
    rw [List.count_cons]
    rcases List.mem_cons.mp h with rfl | h2
    · rw [List.count_eq_zero.mpr hn'.1, beq_self_eq_true]
      rfl
    · have hab : (b == a) = false :=
        beq_eq_false_iff_ne.mpr (fun he => hn'.1 (he ▸ h2))
      rw [ih hn'.2 h2, hab]
      rfl

/-- C10: for every non-empty retrieval and every admissible enumeration of
Python's source set (any order, but exactly the distinct elements), the
`sources` field contains each distinct source value exactly once and omits
everything else; the order is unspecified precisely because the theorem holds
for every admissible enumeration. -/
theorem claim_C10 (s : RAGService) (question : Str)
    (hset : ∀ l : List Str, (s.setToList l).Nodup ∧
      ∀ x, x ∈ s.setToList l ↔ x ∈ l)
    (hne : s.vector_store.query question s.top_k s.threshold ≠ []) :
    ∀ src : Str,
      (src ∈ (s.vector_store.query question s.top_k
          s.threshold).map RetrievedDoc.source →
        (RAGService.query s question).sources.count src = 1) ∧
      (src ∉ (s.vector_store.query question s.top_k
          s.threshold).map RetrievedDoc.source →
        (RAGService.query s question).sources.count src = 0) := by
  intro src
  have hq : (RAGService.query s question).sources =
      s.setToList ((s.vector_store.query question s.top_k
        s.threshold).map RetrievedDoc.source) := by
    simp only [RAGService.query, if_neg hne]
  constructor
  · intro hmem
    rw [hq]
    exact count_eq_one_of_nodup_mem (hset _).1 (((hset _).2 src).mpr hmem)
  · intro hmem
    rw [hq]
    exact List.count_eq_zero.mpr (fun hc => hmem (((hset _).2 src).mp hc))

/-- Witness for C10: two retrieved chunks share the source `"s"`, which
appears exactly once in the reported sources. -/
theorem claim_C10_witness :
    (RAGService.query
        { llm := id,
          vector_store := ⟨fun _ _ =>
            [⟨['a'], ['s'], 1⟩, ⟨['b'], ['s'], 1⟩]⟩,
          top_k := 5, threshold := 2, setToList := List.dedup }
        ['q']).sources.count ['s'] = 1 :=
  (claim_C10
    { llm := id,
      vector_store := ⟨fun _ _ => [⟨['a'], ['s'], 1⟩, ⟨['b'], ['s'], 1⟩]⟩,
      top_k := 5, threshold := 2, setToList := List.dedup } ['q']
    (fun l => ⟨List.nodup_dedup l, fun _ => List.mem_dedup⟩)
    (by decide) ['s']).1 (by decide)

/-- Chunk metadata as built by `chunk_document` (ingest.py lines 155, 159,
170-174): the source file name, the chunk's index and its cluster id
(`cluster_label` is only stamped later by `main`). -/
structure ChunkMeta where
  file_name : Str
  chunk_index : Nat
  cluster_id : Int
deriving DecidableEq

/-- A chunk: text plus metadata. -/
structure Chunk where
  text : Str
  metadata : ChunkMeta
deriving DecidableEq

/-- Model of `chunk_document` (ingest.py lines 152-177).  External collaborators are
parameters: `splitter` (the langchain coarse splitter used inside
`initial_split`, with `chunk_size = 300` absorbed), `embed` (the embedding
model) and `cluster` (the scipy clustering of `cluster_chunks`).  A document
whose stripped text is under 100 characters, or whose initial split yields
fewer than 2 fragments, bypasses all chunking and becomes one chunk with
`chunk_index = 0` and `cluster_id = 0`; otherwise the fragments are
recursively chunked (`max_length = 1500`, `percentile = 0.85`), stripped,
filtered of empties, and enumerated with their cluster ids (indexing into the
cluster assignment is modelled with a default of 0, as `cluster_chunks`
returns one id per input text). -/
noncomputable def chunk_document (splitter : Str → List Str)
    (embed : List Str → List Vec) (cluster : List Str → Nat → List Int)
    (text : Str) (file_name : Str) (n_clusters : Nat) : List Chunk :=
  if (pyStrip text).length < 100 then
    [⟨pyStrip text, ⟨file_name, 0, 0⟩⟩]
  else
    if (initial_split splitter text 100).length < 2 then
      [⟨pyStrip text, ⟨file_name, 0, 0⟩⟩]
    else
      let initial := initial_split splitter text 100
      let embeddings := embed initial
      let final_texts := ((recursive_chunk initial embeddings 1500
        (85 / 100)).map pyStrip).filter (fun t => !t.isEmpty)
      let cluster_ids := cluster final_texts n_clusters
      final_texts.enum.map
        (fun p => ⟨p.2, ⟨file_name, p.1, cluster_ids.getD p.1 0⟩⟩)

/-- C9: a document whose stripped text is under 100 characters, or whose
initial split produces fewer than 2 fragments, bypasses all chunking:
`chunk_document` returns exactly one chunk carrying the stripped text with
`chunk_index = 0` and `cluster_id = 0`. -/
theorem claim_C9 (splitter : Str → List Str) (embed : List Str → List Vec)
    (cluster : List Str → Nat → List Int) (text file_name : Str)
    (n_clusters : Nat)
    (h : (pyStrip text).length < 100 ∨
      (initial_split splitter text 100).length < 2) :
    chunk_document splitter embed cluster text file_name n_clusters =
      [⟨pyStrip text, ⟨file_name, 0, 0⟩⟩] := by
  rw [chunk_document]
  rcases h with h | h
  · rw [if_pos h]
  · by_cases h1 : (pyStrip text).length < 100
    · rw [if_pos h1]
    · rw [if_neg h1, if_pos h]

/-- Witness for C9 on the short document `"hi"`. -/
theorem claim_C9_witness :
    chunk_document (fun t => [t]) (fun _ => []) (fun _ _ => [])
        ['h', 'i'] ['f'] 6 =
      [⟨pyStrip ['h', 'i'], ⟨['f'], 0, 0⟩⟩] :=
  claim_C9 (fun t => [t]) (fun _ => []) (fun _ _ => []) ['h', 'i'] ['f'] 6
    (Or.inl (by decide))

/-- Events of the upload phase of the ingestion run. -/
inductive IngestEvent
  | saveBackup
  | uploadAttempt
  | uploadSucceeded
  | uploadFailed
  | deleteBackup
deriving DecidableEq

/-- Result of one ingestion run: its event trace, whether the backup file is
on disk afterwards, and whether the run succeeded (a failed upload re-raises,
aborting the run). -/
structure IngestOutcome where
  trace : List IngestEvent
  backupExists : Bool
  succeeded : Bool
deriving DecidableEq

/-- The backup/upload tail of `main` (ingest.py lines 288-322).  On the fresh
path (`reuseBackup = false`) the chunk set is written to the backup file
(`save_chunks_backup`, line 290) before the upload; `save_chunks_backup`
catches its own I/O errors and returns a success flag (`saveOk`) that `main`
ignores.  On the reuse path the backup file already exists on disk.  A
successful upload deletes the backup (lines 313-316); a failed upload leaves
it untouched, logs its location and re-raises (lines 318-322). -/
def ingestMain (reuseBackup saveOk uploadOk : Bool) : IngestOutcome :=
  let backup1 := if reuseBackup then true else saveOk
  let tr1 : List IngestEvent :=
    if reuseBackup then [] else [IngestEvent.saveBackup]
  if uploadOk then
    { trace := tr1 ++ [IngestEvent.uploadAttempt, IngestEvent.uploadSucceeded]
        ++ (if backup1 then [IngestEvent.deleteBackup] else []),
      backupExists := false, succeeded := true }
  else
    { trace := tr1 ++ [IngestEvent.uploadAttempt, IngestEvent.uploadFailed],
      backupExists := backup1, succeeded := false }

/-- C7: the ingestion pipeline writes the backup before attempting the bulk
upload (on a fresh run the trace starts with the save, then the upload
attempt); if the upload raises, the backup file — present whenever it was
reused or its write succeeded — is still on disk afterwards and the run
aborts; after a successful upload the backup is gone, and a backup deletion
only ever happens after a successful upload. -/
theorem claim_C7 (reuseBackup saveOk uploadOk : Bool) :
    ((ingestMain false saveOk uploadOk).trace.take 2 =
      [IngestEvent.saveBackup, IngestEvent.uploadAttempt]) ∧
    ((reuseBackup = true ∨ saveOk = true) → uploadOk = false →
      (ingestMain reuseBackup saveOk uploadOk).backupExists = true ∧
      (ingestMain reuseBackup saveOk uploadOk).succeeded = false) ∧
    (uploadOk = true →
      (ingestMain reuseBackup saveOk uploadOk).backupExists = false ∧
      (ingestMain reuseBackup saveOk uploadOk).succeeded = true) ∧
    (IngestEvent.deleteBackup ∈ (ingestMain reuseBackup saveOk uploadOk).trace →
      uploadOk = true ∧
      (ingestMain reuseBackup saveOk uploadOk).trace.indexOf
          IngestEvent.uploadSucceeded <
        (ingestMain reuseBackup saveOk uploadOk).trace.indexOf
          IngestEvent.deleteBackup) := by
  revert reuseBackup saveOk uploadOk
  decide

/-- Witness for C7: fresh run, successful backup write, failed upload — the
backup is retained and the run aborts. -/
theorem claim_C7_witness :
    (ingestMain false true false).backupExists = true ∧
    (ingestMain false true false).succeeded = false :=
  (claim_C7 false true false).2.1 (Or.inr rfl) rfl
